import Mathlib

/-!
Verification of the dynamic Hebrew morphological analyzer
(`src/core/dynamic_hebrew_analyzer.py`, class `DynamicHebrewAnalyzer`).

Python strings are modelled as `List Char` (lists of Unicode code points);
Python `float` confidence values are modelled exactly as rationals `ℚ`.
Each `_name` method of the class is embedded as a Lean definition of the
same name (leading underscore dropped), translated clause by clause.
-/

namespace DynamicHebrew

/-- Python `\s` / `str.strip()` whitespace test, restricted to the Unicode
whitespace code points (ASCII whitespace, NEL, NBSP, ogham space,
general-punctuation spaces, line/paragraph separators, narrow NBSP,
math space, ideographic space). -/
def isPySpace (c : Char) : Bool :=
  c = ' ' || c = '\t' || c = '\n' || c = '\x0b' || c = '\x0c' || c = '\r' ||
  c = '\x1c' || c = '\x1d' || c = '\x1e' || c = '\x1f' ||
  c = '\x85' || c = '\xa0' || c.toNat = 0x1680 ||
  (0x2000 ≤ c.toNat && c.toNat ≤ 0x200A) ||
  c.toNat = 0x2028 || c.toNat = 0x2029 || c.toNat = 0x202F ||
  c.toNat = 0x205F || c.toNat = 0x3000

/-- Character class of `re.sub(r'[׃.,;!?\s]+$', '', word)` in
`_clean_hebrew_word`: sof pasuq, ASCII sentence punctuation, whitespace. -/
def isCleanPunct (c : Char) : Bool :=
  c = '׃' || c = '.' || c = ',' || c = ';' || c = '!' || c = '?' || isPySpace c

/-- Remove the maximal trailing run of characters satisfying `p`
(the effect of `re.sub(r'[class]+$', '', w)` for a one-character class set,
since `\n` belongs to the class whenever whitespace does). -/
def removeTrailingRun (p : Char → Bool) (w : List Char) : List Char :=
  (w.reverse.dropWhile p).reverse

/-- Python `str.strip()`: drop leading and trailing whitespace. -/
def pyStrip (w : List Char) : List Char :=
  ((w.dropWhile isPySpace).reverse.dropWhile isPySpace).reverse

/-- Method `_clean_hebrew_word`: strip trailing punctuation/whitespace with the
regex substitution, then `strip()` the result. -/
def clean_hebrew_word (w : List Char) : List Char :=
  pyStrip (removeTrailingRun isCleanPunct w)

/-- Python `str.startswith` on list-of-codepoint strings. -/
def pyStartswith (pre w : List Char) : Bool := pre.isPrefixOf w

/-- Python `str.endswith` on list-of-codepoint strings. -/
def pyEndswith (suf w : List Char) : Bool := suf.isSuffixOf w

/-- One detected morpheme span (a `{'morpheme': …, 'function': …,
'position': …}` dict appended by `_detect_morphemes`). -/
structure MorphemeSpan where
  morpheme : List Char
  function : String
  position : String
deriving DecidableEq

/-- Result dict of `_detect_morphemes`. -/
structure Morphemes where
  prefixes : List MorphemeSpan
  stem : List Char
  suffixes : List MorphemeSpan
  analysis_method : String
deriving DecidableEq

/-- Table `prefix_patterns` dict of `_detect_morphemes`, in insertion
(= iteration) order: article ה, conjunction ו, prepositions ב כ ל מ,
relative pronoun ש. -/
def prefix_patterns : List (Char × String) :=
  [('ה', "definite_article"),
   ('ו', "conjunction_waw"),
   ('ב', "preposition_in"),
   ('כ', "preposition_like"),
   ('ל', "preposition_to"),
   ('מ', "preposition_from"),
   ('ש', "relative_pronoun")]

/-- Table `suffix_patterns` dict of `_detect_morphemes`, in insertion order. -/
def suffix_patterns : List (List Char × String) :=
  [(['י', 'ם'], "masculine_plural"),
   (['ו', 'ת'], "feminine_plural"),
   (['ת'], "feminine_singular_or_construct"),
   (['י'], "construct_or_possessive"),
   (['ה'], "feminine_or_directional"),
   (['ן'], "final_nun_energicum"),
   (['נ', 'ו'], "our_suffix"),
   (['כ', 'ם'], "your_masculine_plural"),
   (['כ', 'ן'], "your_feminine_plural")]

/-- Result of `sorted(suffix_patterns.keys(), key=len, reverse=True)` paired with the
dict values: a stable sort by descending key length (Python's `sorted` is
stable, so equal-length keys keep insertion order). Written out literally;
`sorted_suffix_patterns_is_stable_sort` certifies it against
`suffix_patterns`. -/
def sorted_suffix_patterns : List (List Char × String) :=
  [(['י', 'ם'], "masculine_plural"),
   (['ו', 'ת'], "feminine_plural"),
   (['נ', 'ו'], "our_suffix"),
   (['כ', 'ם'], "your_masculine_plural"),
   (['כ', 'ן'], "your_feminine_plural"),
   (['ת'], "feminine_singular_or_construct"),
   (['י'], "construct_or_possessive"),
   (['ה'], "feminine_or_directional"),
   (['ן'], "final_nun_energicum")]

/-- The prefix loop of `_detect_morphemes`: one pass over the pattern list;
for each pattern in order, if the working word starts with it and has
length above 1, a span is recorded and the character removed
(`working_word[1:]`). Returns the recorded spans and the final residual. -/
def stripPrefixes : List (Char × String) → List Char →
    List MorphemeSpan × List Char
  | [], w => ([], w)
  | (p, meaning) :: rest, w =>
    if pyStartswith [p] w ∧ 1 < w.length then
      let next := stripPrefixes rest (w.drop 1)
      (⟨[p], meaning, "prefix"⟩ :: next.1, next.2)
    else
      stripPrefixes rest w

/-- The suffix loop of `_detect_morphemes`: scan the sorted suffix list;
the first pattern that ends the working word and is shorter than it is
recorded and removed (`working_word[:-len(suffix)]`), and the loop breaks. -/
def stripSuffix : List (List Char × String) → List Char →
    List MorphemeSpan × List Char
  | [], w => ([], w)
  | (suf, meaning) :: rest, w =>
    if pyEndswith suf w ∧ suf.length < w.length then
      ([⟨suf, meaning, "suffix"⟩], w.take (w.length - suf.length))
    else
      stripSuffix rest w

/-- Method `_detect_morphemes`: strip prefixes, then at most one suffix; the
remaining working word is the stem. -/
def detect_morphemes (word : List Char) : Morphemes :=
  let afterPre := stripPrefixes prefix_patterns word
  let afterSuf := stripSuffix sorted_suffix_patterns afterPre.2
  { prefixes := afterPre.1
    stem := afterSuf.2
    suffixes := afterSuf.1
    analysis_method := "algorithmic" }

/-- Test for the Hebrew accents-and-points block of
`re.sub(r'[֑-ׇ]', '', text)` in `_extract_consonants`. -/
def isNikkud (c : Char) : Bool :=
  0x0591 ≤ c.toNat && c.toNat ≤ 0x05C7

/-- Method `_extract_consonants`: remove every code point in the nikkud block. -/
def extract_consonants (text : List Char) : List Char :=
  text.filter (fun c => ¬ isNikkud c)

/-- Character class of `re.search(r'[תיםנה]$', word)` in
`_matches_verb_patterns` (common verbal endings). -/
def verbalEndings : List Char := ['ת', 'י', 'ם', 'נ', 'ה']

/-- Character class of `re.search(r'^[אתינה]', word)` in
`_matches_verb_patterns` (common verbal prefixes). -/
def verbalPrefixes : List Char := ['א', 'ת', 'י', 'נ', 'ה']

/-- Semantics of `re.search(r'[c₁…cₖ]$', w)` without `re.MULTILINE`: the regex anchor `$`
matches at the end of the string and also just before a newline that ends
the string, so the search succeeds iff the last character is in the class,
or the string ends with a newline preceded by a class character. -/
def searchClassEnd (cls : List Char) (w : List Char) : Bool :=
  match w.reverse with
  | [] => false
  | c :: rest =>
    cls.contains c ||
      (c = '\n' && match rest with
        | [] => false
        | d :: _ => cls.contains d)

/-- Semantics of `re.search(r'^[c₁…cₖ]', w)`: the first character is in the class. -/
def searchClassStart (cls : List Char) (w : List Char) : Bool :=
  match w with
  | [] => false
  | c :: _ => cls.contains c

/-- Method `_matches_verb_patterns`: at least two of three indicators hold —
three or more consonants after nikkud removal, a verbal-ending match at the
end, a verbal-prefix match at the start (`sum(verb_indicators) >= 2`). -/
def matches_verb_patterns (word : List Char) : Bool :=
  let consonants := extract_consonants word
  let i1 : Bool := 3 ≤ consonants.length
  let i2 : Bool := searchClassEnd verbalEndings word
  let i3 : Bool := searchClassStart verbalPrefixes word
  2 ≤ i1.toNat + i2.toNat + i3.toNat

/-- Table `noun_endings` list of `_matches_noun_patterns`. -/
def noun_endings : List (List Char) :=
  [['י', 'ם'], ['ו', 'ת'], ['ת'], ['ה'], ['י']]

/-- Method `_matches_noun_patterns`: definite article at the start, or any common
noun ending at the end. -/
def matches_noun_patterns (word : List Char) : Bool :=
  if pyStartswith ['ה'] word then
    true
  else if noun_endings.any (fun ending => pyEndswith ending word) then
    true
  else
    false

/-- Method `_detect_verbal_features`: independent `startswith` checks, appended in
source order. -/
def detect_verbal_features (word : List Char) : List String :=
  (if pyStartswith ['ה'] word then ["possible_hiphil"] else []) ++
  (if pyStartswith ['נ'] word then ["possible_niphal"] else []) ++
  (if pyStartswith ['ת'] word then ["possible_hithpael_or_future"] else []) ++
  (if pyStartswith ['י'] word then ["possible_future_3ms"] else []) ++
  (if pyStartswith ['א'] word then ["possible_future_1s"] else [])

/-- Method `_detect_nominal_features`: independent checks, appended in source
order. -/
def detect_nominal_features (word : List Char) : List String :=
  (if pyStartswith ['ה'] word then ["definite_article"] else []) ++
  (if pyEndswith ['י', 'ם'] word then ["masculine_plural"] else []) ++
  (if pyEndswith ['ו', 'ת'] word then ["feminine_plural"] else []) ++
  (if pyEndswith ['ת'] word then ["feminine_or_construct"] else [])

/-- Result dict of `_classify_grammatically`. -/
structure Classification where
  primary_category : String
  secondary_features : List String
  reasoning : String
deriving DecidableEq

/-- Method `_classify_grammatically`: verb patterns first, then noun patterns,
then the short-word particle fallback, else `unknown`. -/
def classify_grammatically (word : List Char) : Classification :=
  if matches_verb_patterns word then
    { primary_category := "verb"
      secondary_features := detect_verbal_features word
      reasoning := "matches Hebrew verbal morphology patterns" }
  else if matches_noun_patterns word then
    { primary_category := "noun"
      secondary_features := detect_nominal_features word
      reasoning := "matches Hebrew nominal morphology patterns" }
  else if word.length ≤ 3 then
    { primary_category := "particle"
      secondary_features := ["short_function_word"]
      reasoning := "short word likely function/grammatical particle" }
  else
    { primary_category := "unknown"
      secondary_features := []
      reasoning := "pattern not clearly identified" }

/-- Result dict of `_extract_root_algorithmically`. -/
structure RootInfo where
  extracted_root : List Char
  root_length : Nat
  extraction_method : String
  confidence : String
deriving DecidableEq

/-- Method `_extract_root_algorithmically`: nikkud-free form of the detected stem;
`medium` confidence for root length 2–4, else `low`. -/
def extract_root_algorithmically (word : List Char) : RootInfo :=
  let morphemes := detect_morphemes word
  let consonant_root := extract_consonants morphemes.stem
  { extracted_root := consonant_root
    root_length := consonant_root.length
    extraction_method := "algorithmic_morpheme_analysis"
    confidence :=
      if 2 ≤ consonant_root.length ∧ consonant_root.length ≤ 4 then "medium"
      else "low" }

/-- Character class `[ְ-ׇֽֿׁׂׅׄ]`
used by `_estimate_syllables` and `_extract_vowel_pattern`. -/
def isVowelPoint (c : Char) : Bool :=
  (0x05B0 ≤ c.toNat && c.toNat ≤ 0x05BD) || c.toNat = 0x05BF ||
  c.toNat = 0x05C1 || c.toNat = 0x05C2 || c.toNat = 0x05C4 ||
  c.toNat = 0x05C5 || c.toNat = 0x05C7

/-- Method `_estimate_syllables`: count vowel points, with a floor of one. -/
def estimate_syllables (word : List Char) : Nat :=
  max 1 (word.filter isVowelPoint).length

/-- Method `_extract_vowel_pattern`: the vowel points in original order. -/
def extract_vowel_pattern (word : List Char) : List Char :=
  word.filter isVowelPoint

/-- Method `_extract_consonant_pattern` delegates to `_extract_consonants`. -/
def extract_consonant_pattern (word : List Char) : List Char :=
  extract_consonants word

/-- Table `final_letters` string of `_detect_special_features`. -/
def final_letters : List Char := ['ך', 'ם', 'ן', 'ף', 'ץ']

/-- Cantillation block `[֑-֯]` of `_detect_special_features`. -/
def isCantillation (c : Char) : Bool :=
  0x0591 ≤ c.toNat && c.toNat ≤ 0x05AF

/-- Method `_detect_special_features`: dagesh, final-form letter, cantillation
mark — independent membership checks, appended in source order. -/
def detect_special_features (word : List Char) : List String :=
  (if word.contains 'ּ' then ["contains_dagesh"] else []) ++
  (if final_letters.any (fun letter => word.contains letter) then
    ["contains_final_form"] else []) ++
  (if word.any isCantillation then ["contains_cantillation"] else [])

/-- Result dict of `_detect_morphological_features`. -/
structure MorphFeatures where
  syllable_count : Nat
  vowel_pattern : List Char
  consonant_pattern : List Char
  special_features : List String
deriving DecidableEq

/-- Method `_detect_morphological_features`. -/
def detect_morphological_features (word : List Char) : MorphFeatures :=
  { syllable_count := estimate_syllables word
    vowel_pattern := extract_vowel_pattern word
    consonant_pattern := extract_consonant_pattern word
    special_features := detect_special_features word }

/-- Round a rational to two decimal places, as Python's
`round(x, 2)` does on the exact values reachable here (none of which lies
on a rounding boundary, so the tie-breaking convention is immaterial). -/
def round2 (q : ℚ) : ℚ := (round (q * 100) : ℚ) / 100

/-- Method `_calculate_dynamic_confidence`: average of the length factor, the
pattern-recognition factor and the morpheme (stem non-emptiness) factor,
rounded to two decimals. -/
def calculate_dynamic_confidence (word : List Char) : ℚ :=
  let length_score : ℚ := if 2 ≤ word.length ∧ word.length ≤ 8 then 1 else 1/2
  let pattern_score : ℚ :=
    if matches_verb_patterns word || matches_noun_patterns word then 4/5
    else 2/5
  let morpheme_score : ℚ :=
    if (detect_morphemes word).stem ≠ [] then 7/10 else 3/10
  round2 ((length_score + pattern_score + morpheme_score) / 3)

/-- The analysis dict returned by `analyze_word_dynamically`. -/
structure WordAnalysis where
  original_word : List Char
  clean_word : List Char
  detected_morphemes : Morphemes
  grammatical_category : Classification
  root_extraction : RootInfo
  morphological_features : MorphFeatures
  confidence_score : ℚ
deriving DecidableEq

/-- Method `analyze_word_dynamically`: clean the word, then populate every field
from the cleaned form. -/
def analyze_word_dynamically (word : List Char) : WordAnalysis :=
  let clean_word := clean_hebrew_word word
  { original_word := word
    clean_word := clean_word
    detected_morphemes := detect_morphemes clean_word
    grammatical_category := classify_grammatically clean_word
    root_extraction := extract_root_algorithmically clean_word
    morphological_features := detect_morphological_features clean_word
    confidence_score := calculate_dynamic_confidence clean_word }

/-- List `sorted_suffix_patterns` is exactly the stable descending-length sort
of `suffix_patterns`: keys are sorted by non-increasing length, every key
has length one or two, and for each of those lengths the equal-length
entries appear in their original dict order. -/
theorem sorted_suffix_patterns_is_stable_sort :
    sorted_suffix_patterns.Pairwise
      (fun a b => b.1.length ≤ a.1.length) ∧
    (∀ q ∈ suffix_patterns, q.1.length = 1 ∨ q.1.length = 2) ∧
    sorted_suffix_patterns.filter (fun q => q.1.length = 2) =
      suffix_patterns.filter (fun q => q.1.length = 2) ∧
    sorted_suffix_patterns.filter (fun q => q.1.length = 1) =
      suffix_patterns.filter (fun q => q.1.length = 1) := by
  refine ⟨?_, ?_, ?_, ?_⟩ <;> decide

/-! General list facts used throughout. -/

/-- The head surviving `dropWhile p` fails `p`. -/
theorem head?_dropWhile_not {α : Type} (p : α → Bool) :
    ∀ (l : List α) {a : α}, (l.dropWhile p).head? = some a → p a = false
  | [], a, h => by simp [List.dropWhile] at h
  | x :: xs, a, h => by
    rw [List.dropWhile_cons] at h
    by_cases hp : p x = true
    · rw [if_pos hp] at h
      exact head?_dropWhile_not p xs h
    · rw [if_neg hp] at h
      simp only [List.head?_cons, Option.some.injEq] at h
      subst h
      exact Bool.not_eq_true _ ▸ hp

/-- Function `dropWhile` is the identity when the head already fails `p`. -/
theorem dropWhile_eq_self_of_head {α : Type} (p : α → Bool) (l : List α)
    (h : ∀ a, l.head? = some a → p a = false) : l.dropWhile p = l := by
  cases l with
  | nil => rfl
  | cons x xs =>
    rw [List.dropWhile_cons, if_neg]
    simp [h x rfl]

/-- A non-empty prefix has the same head as the longer list. -/
theorem head?_mono_of_pre {α : Type} {s t : List α} (h : s <+: t) {a : α}
    (ha : s.head? = some a) : t.head? = some a := by
  obtain ⟨r, rfl⟩ := h
  cases s <;> simp_all

/-! Facts about `clean_hebrew_word`. -/

/-- Whitespace characters all belong to the trailing-punctuation class. -/
theorem isPySpace_isCleanPunct {a : Char} (h : isPySpace a = true) :
    isCleanPunct a = true := by
  simp [isCleanPunct, h]

/-- A character failing the punctuation class also fails the whitespace
test. -/
theorem not_punct_not_space {a : Char} (h : isCleanPunct a = false) :
    isPySpace a = false := by
  by_cases hs : isPySpace a = true
  · rw [isPySpace_isCleanPunct hs] at h
    exact absurd h (by simp)
  · simpa using hs

/-- After the regex substitution removed the trailing punctuation run, the
final `strip()` only trims from the front: the cleaned word is a
`dropWhile` of the substituted word. -/
theorem clean_hebrew_word_eq (w : List Char) :
    clean_hebrew_word w =
      (removeTrailingRun isCleanPunct w).dropWhile isPySpace := by
  unfold clean_hebrew_word pyStrip removeTrailingRun
  have hsub :
      ((w.reverse.dropWhile isCleanPunct).reverse.dropWhile
        isPySpace).reverse.dropWhile isPySpace =
      ((w.reverse.dropWhile isCleanPunct).reverse.dropWhile
        isPySpace).reverse := by
    apply dropWhile_eq_self_of_head
    intro a ha
    have hpre :
        ((w.reverse.dropWhile isCleanPunct).reverse.dropWhile
          isPySpace).reverse <+: w.reverse.dropWhile isCleanPunct := by
      have h1 := List.reverse_prefix.mpr
        (List.dropWhile_suffix
          (l := (w.reverse.dropWhile isCleanPunct).reverse) isPySpace)
      simpa using h1
    have hup := head?_mono_of_pre hpre ha
    exact not_punct_not_space (head?_dropWhile_not _ _ hup)
  rw [hsub, List.reverse_reverse]

/-- The cleaned word never starts with whitespace. -/
theorem clean_head_not_space (w : List Char) {a : Char}
    (h : (clean_hebrew_word w).head? = some a) : isPySpace a = false := by
  rw [clean_hebrew_word_eq] at h
  exact head?_dropWhile_not _ _ h

/-- The cleaned word never ends with a punctuation-class character (in
particular never with whitespace). -/
theorem clean_last_not_punct (w : List Char) {a : Char}
    (h : (clean_hebrew_word w).reverse.head? = some a) :
    isCleanPunct a = false := by
  rw [clean_hebrew_word_eq] at h
  have hpre :
      ((removeTrailingRun isCleanPunct w).dropWhile isPySpace).reverse <+:
        w.reverse.dropWhile isCleanPunct := by
    unfold removeTrailingRun
    have h1 := List.reverse_prefix.mpr
      (List.dropWhile_suffix
        (l := (w.reverse.dropWhile isCleanPunct).reverse) isPySpace)
    simpa using h1
  exact head?_dropWhile_not _ _ (head?_mono_of_pre hpre h)

/-- C8: cleaning is idempotent — applying `_clean_hebrew_word` to an
already-cleaned token changes nothing, so `clean (clean w) = clean w` for
every string `w`. -/
theorem C8_clean_idempotent (w : List Char) :
    clean_hebrew_word (clean_hebrew_word w) = clean_hebrew_word w := by
  have hback : removeTrailingRun isCleanPunct (clean_hebrew_word w) =
      clean_hebrew_word w := by
    unfold removeTrailingRun
    rw [dropWhile_eq_self_of_head isCleanPunct _
      (fun a ha => clean_last_not_punct w ha), List.reverse_reverse]
  rw [clean_hebrew_word_eq (clean_hebrew_word w), hback]
  exact dropWhile_eq_self_of_head isPySpace _
    (fun a ha => clean_head_not_space w ha)

/-! Facts about the prefix pass. -/

/-- The prefix spans recorded by one pass, concatenated with the pass's
residual, rebuild the input word. -/
theorem stripPrefixes_flatten :
    ∀ (ps : List (Char × String)) (w : List Char),
      ((stripPrefixes ps w).1.map MorphemeSpan.morpheme).flatten ++
        (stripPrefixes ps w).2 = w
  | [], w => by simp [stripPrefixes]
  | (p, meaning) :: rest, w => by
    rw [stripPrefixes]
    by_cases h : pyStartswith [p] w ∧ 1 < w.length
    · rw [if_pos h]
      obtain ⟨hpre, -⟩ := h
      obtain ⟨r, hr⟩ := List.isPrefixOf_iff_prefix.mp hpre
      have hw : w = p :: r := by simpa using hr.symm
      subst hw
      have ih := stripPrefixes_flatten rest r
      simpa using ih
    · rw [if_neg h]
      exact stripPrefixes_flatten rest w

/-- A single pass strips each table entry at most once and in table order:
the recorded (morpheme, function) pairs form a sublist of the pattern
table. -/
theorem stripPrefixes_sublist :
    ∀ (ps : List (Char × String)) (w : List Char),
      ((stripPrefixes ps w).1.map
        (fun s => (s.morpheme, s.function))).Sublist
        (ps.map (fun pr => ([pr.1], pr.2)))
  | [], w => by simp [stripPrefixes]
  | (p, meaning) :: rest, w => by
    rw [stripPrefixes]
    by_cases h : pyStartswith [p] w ∧ 1 < w.length
    · rw [if_pos h]
      simpa using
        List.Sublist.cons₂ ([p], meaning)
          (stripPrefixes_sublist rest (w.drop 1))
    · rw [if_neg h]
      exact List.Sublist.cons _ (stripPrefixes_sublist rest w)

/-- A non-empty word stays non-empty through the prefix pass (a character
is only stripped while the residual length exceeds one). -/
theorem stripPrefixes_snd_ne_nil :
    ∀ (ps : List (Char × String)) (w : List Char), w ≠ [] →
      (stripPrefixes ps w).2 ≠ []
  | [], w, hw => hw
  | (p, meaning) :: rest, w, hw => by
    rw [stripPrefixes]
    by_cases h : pyStartswith [p] w ∧ 1 < w.length
    · rw [if_pos h]
      refine stripPrefixes_snd_ne_nil rest (w.drop 1) ?_
      refine List.ne_nil_of_length_pos ?_
      rw [List.length_drop]
      omega
    · rw [if_neg h]
      exact stripPrefixes_snd_ne_nil rest w hw

/-- The prefix pass leaves the empty word empty. -/
theorem stripPrefixes_snd_nil :
    ∀ (ps : List (Char × String)), (stripPrefixes ps []).2 = []
  | [] => rfl
  | (p, meaning) :: rest => by
    rw [stripPrefixes, if_neg]
    · exact stripPrefixes_snd_nil rest
    · simp

/-! Facts about the suffix scan. -/

/-- Full characterisation of the suffix scan: either no pattern matches
(suffix of the word, strictly shorter) and nothing is stripped, or the
first matching pattern in scan order is stripped from the end. -/
theorem stripSuffix_spec :
    ∀ (ss : List (List Char × String)) (w : List Char),
      ((∀ q ∈ ss, ¬ (pyEndswith q.1 w = true ∧ q.1.length < w.length)) ∧
        stripSuffix ss w = ([], w)) ∨
      (∃ pre pat post, ss = pre ++ pat :: post ∧
        (pyEndswith pat.1 w = true ∧ pat.1.length < w.length) ∧
        (∀ q ∈ pre, ¬ (pyEndswith q.1 w = true ∧ q.1.length < w.length)) ∧
        stripSuffix ss w =
          ([⟨pat.1, pat.2, "suffix"⟩], w.take (w.length - pat.1.length)))
  | [], w => Or.inl ⟨by simp, rfl⟩
  | (suf, meaning) :: rest, w => by
    by_cases h : pyEndswith suf w = true ∧ suf.length < w.length
    · refine Or.inr ⟨[], (suf, meaning), rest, by simp, h, by simp, ?_⟩
      rw [stripSuffix, if_pos h]
    · rcases stripSuffix_spec rest w with ⟨hnone, heq⟩ | ⟨pre, pat, post, hss, hpat, hpre, heq⟩
      · refine Or.inl ⟨?_, ?_⟩
        · intro q hq
          rcases List.mem_cons.mp hq with hq | hq
          · subst hq; exact h
          · exact hnone q hq
        · rw [stripSuffix, if_neg h]; exact heq
      · refine Or.inr ⟨(suf, meaning) :: pre, pat, post, by rw [hss]; rfl, hpat, ?_, ?_⟩
        · intro q hq
          rcases List.mem_cons.mp hq with hq | hq
          · subst hq; exact h
          · exact hpre q hq
        · rw [stripSuffix, if_neg h]; exact heq

/-- The residual of the suffix scan, followed by the stripped span texts,
rebuilds the input word. -/
theorem stripSuffix_flatten (ss : List (List Char × String)) (w : List Char) :
    (stripSuffix ss w).2 ++
      ((stripSuffix ss w).1.map MorphemeSpan.morpheme).flatten = w := by
  rcases stripSuffix_spec ss w with ⟨-, heq⟩ | ⟨pre, pat, post, -, ⟨hend, hlt⟩, -, heq⟩
  · rw [heq]; simp
  · rw [heq]
    obtain ⟨t, ht⟩ := List.isSuffixOf_iff_suffix.mp hend
    have hlen : w.length - pat.1.length = t.length := by
      have := congrArg List.length ht
      simp only [List.length_append] at this
      omega
    rw [hlen, ← ht, List.take_left]
    simp

/-- The suffix scan strips at most one span. -/
theorem stripSuffix_fst_length (ss : List (List Char × String))
    (w : List Char) : (stripSuffix ss w).1.length ≤ 1 := by
  rcases stripSuffix_spec ss w with ⟨-, heq⟩ | ⟨pre, pat, post, -, -, -, heq⟩ <;>
    simp [heq]

/-- A non-empty word stays non-empty through the suffix scan (a suffix is
only stripped when strictly shorter than the word). -/
theorem stripSuffix_snd_ne_nil (ss : List (List Char × String))
    (w : List Char) (hw : w ≠ []) : (stripSuffix ss w).2 ≠ [] := by
  rcases stripSuffix_spec ss w with ⟨-, heq⟩ | ⟨pre, pat, post, -, ⟨-, hlt⟩, -, heq⟩
  · rw [heq]; exact hw
  · rw [heq]
    refine List.ne_nil_of_length_pos ?_
    rw [List.length_take]
    have : 0 < w.length := List.length_pos.mpr hw
    omega

/-- The suffix scan leaves the empty word empty. -/
theorem stripSuffix_snd_nil (ss : List (List Char × String)) :
    (stripSuffix ss []).2 = [] := by
  rcases stripSuffix_spec ss [] with ⟨-, heq⟩ | ⟨pre, pat, post, -, ⟨-, hlt⟩, -, heq⟩
  · rw [heq]
  · simp at hlt

/-- C1 counterexample: on the cleaned token בהד the pass strips the
preposition ב, leaving the residual הד — which still starts with the
known prefix ה (the definite article) and has length above one, yet no
further prefix is stripped (the scan over the table is already past ה and
does not restart), refuting the claim that the loop stops only when no
known prefix matches the residual start. -/
theorem C1_counterexample :
    (detect_morphemes ['ב', 'ה', 'ד']).prefixes.map MorphemeSpan.morpheme
        = [['ב']] ∧
    (detect_morphemes ['ב', 'ה', 'ד']).suffixes = [] ∧
    (detect_morphemes ['ב', 'ה', 'ד']).stem = ['ה', 'ד'] ∧
    ¬ (∀ p ∈ prefix_patterns.map Prod.fst,
        ¬ (pyStartswith [p] (detect_morphemes ['ב', 'ה', 'ד']).stem = true ∧
            1 < (detect_morphemes ['ב', 'ה', 'ד']).stem.length)) := by
  decide

/-- C1 (corrected): prefix stripping is a single pass over the fixed
prefix table in its fixed order (ה, ו, ב, כ, ל, מ, ש); each table entry is
tested once against the current residual and stripped (with its function
tag, recorded in application order) when it starts the residual and the
residual is longer than one character. Hence the recorded
(morpheme, function) pairs always form a sublist of the table — prefixes
stack only in table order, and a table entry earlier than one already
stripped (e.g. a definite article following a preposition) is never
stripped. -/
theorem C1_single_pass_sublist (word : List Char) :
    ((analyze_word_dynamically word).detected_morphemes.prefixes.map
      (fun s => (s.morpheme, s.function))).Sublist
      (prefix_patterns.map (fun pr => ([pr.1], pr.2))) := by
  show ((stripPrefixes prefix_patterns (clean_hebrew_word word)).1.map
      (fun s => (s.morpheme, s.function))).Sublist
      (prefix_patterns.map (fun pr => ([pr.1], pr.2)))
  exact stripPrefixes_sublist prefix_patterns (clean_hebrew_word word)

/-- C2 counterexample: on the empty token the analyzer does not return
confidence 0.0 with category `unknown`. -/
theorem C2_counterexample :
    ¬ ((analyze_word_dynamically []).confidence_score = 0 ∧
        (analyze_word_dynamically []).grammatical_category.primary_category
          = "unknown") := by
  rintro ⟨hconf, -⟩
  have hc : (analyze_word_dynamically []).confidence_score =
      calculate_dynamic_confidence (clean_hebrew_word []) := rfl
  rw [hc] at hconf
  have hclean : clean_hebrew_word [] = [] := rfl
  rw [hclean] at hconf
  unfold calculate_dynamic_confidence at hconf
  rw [if_neg (by simp), if_neg (by decide), if_neg (by decide)] at hconf
  norm_num [round2, round_eq] at hconf

/-- C2 (corrected): for the empty input token, analyze returns (without
raising) an analysis whose confidence_score equals 0.4 — the length factor
0.5, the pattern factor 0.4 and the empty-stem factor 0.3 average to
0.4 — and whose primary grammatical category is `particle` (the empty
token fails the verb and noun heuristics and falls through to the
length ≤ 3 particle rule). -/
theorem C2_empty_token :
    (analyze_word_dynamically []).confidence_score = 2/5 ∧
    (analyze_word_dynamically []).grammatical_category.primary_category
      = "particle" := by
  constructor
  · show calculate_dynamic_confidence (clean_hebrew_word []) = 2/5
    have hclean : clean_hebrew_word [] = [] := rfl
    rw [hclean]
    unfold calculate_dynamic_confidence
    rw [if_neg (by simp), if_neg (by decide), if_neg (by decide)]
    norm_num [round2, round_eq]
  · show (classify_grammatically (clean_hebrew_word [])).primary_category
        = "particle"
    decide

/-- C3: lossless segmentation — for every input token, the prefix span
texts in recorded order, then the stem, then the suffix span text (the
suffix list has at most one element, and an empty list contributes
nothing) concatenate back to the cleaned token exactly. -/
theorem C3_lossless (word : List Char) :
    ((analyze_word_dynamically word).detected_morphemes.prefixes.map
        MorphemeSpan.morpheme).flatten ++
      (analyze_word_dynamically word).detected_morphemes.stem ++
      ((analyze_word_dynamically word).detected_morphemes.suffixes.map
        MorphemeSpan.morpheme).flatten =
      (analyze_word_dynamically word).clean_word := by
  rw [List.append_assoc]
  show ((stripPrefixes prefix_patterns (clean_hebrew_word word)).1.map
      MorphemeSpan.morpheme).flatten ++
    ((stripSuffix sorted_suffix_patterns
        (stripPrefixes prefix_patterns (clean_hebrew_word word)).2).2 ++
      ((stripSuffix sorted_suffix_patterns
        (stripPrefixes prefix_patterns (clean_hebrew_word word)).2).1.map
          MorphemeSpan.morpheme).flatten) =
    clean_hebrew_word word
  rw [stripSuffix_flatten]
  exact stripPrefixes_flatten _ _

/-- C5: at most one suffix is ever stripped, and a stripped span is
exactly the first entry of the descending-length scan order that is a
suffix of the prefix-stripped residual and strictly shorter than it (no
earlier entry of the scan order matches). -/
theorem C5_suffix_exclusive (word : List Char) :
    (analyze_word_dynamically word).detected_morphemes.suffixes.length ≤ 1 ∧
    ∀ s ∈ (analyze_word_dynamically word).detected_morphemes.suffixes,
      ∃ pre post,
        sorted_suffix_patterns = pre ++ (s.morpheme, s.function) :: post ∧
        s.morpheme <:+
          (stripPrefixes prefix_patterns (clean_hebrew_word word)).2 ∧
        s.morpheme.length <
          (stripPrefixes prefix_patterns (clean_hebrew_word word)).2.length ∧
        ∀ q ∈ pre,
          ¬ (q.1 <:+
              (stripPrefixes prefix_patterns (clean_hebrew_word word)).2 ∧
            q.1.length <
              (stripPrefixes prefix_patterns
                (clean_hebrew_word word)).2.length) := by
  refine ⟨stripSuffix_fst_length sorted_suffix_patterns _, ?_⟩
  intro s hs
  have hs' : s ∈ (stripSuffix sorted_suffix_patterns
      (stripPrefixes prefix_patterns (clean_hebrew_word word)).2).1 := hs
  rcases stripSuffix_spec sorted_suffix_patterns
      (stripPrefixes prefix_patterns (clean_hebrew_word word)).2 with
    ⟨-, heq⟩ | ⟨pre, pat, post, hss, ⟨hend, hlt⟩, hpre, heq⟩
  · rw [heq] at hs'
    simp at hs'
  · rw [heq] at hs'
    simp only [List.mem_singleton] at hs'
    subst hs'
    refine ⟨pre, post, ?_, ?_, ?_, ?_⟩
    · show sorted_suffix_patterns = pre ++ (pat.1, pat.2) :: post
      rw [Prod.mk.eta]
      exact hss
    · exact List.isSuffixOf_iff_suffix.mp hend
    · exact hlt
    · intro q hq hcond
      exact hpre q hq ⟨List.isSuffixOf_iff_suffix.mpr hcond.1, hcond.2⟩

/-- C9: the detected stem is empty exactly when the cleaned token is
empty — prefixes are stripped only while the residual is longer than one
character and a suffix only when strictly shorter than the residual, so a
non-empty cleaned token always leaves a non-empty stem. -/
theorem C9_stem_empty_iff (word : List Char) :
    (analyze_word_dynamically word).detected_morphemes.stem = [] ↔
      (analyze_word_dynamically word).clean_word = [] := by
  show (stripSuffix sorted_suffix_patterns
      (stripPrefixes prefix_patterns (clean_hebrew_word word)).2).2 = [] ↔
    clean_hebrew_word word = []
  constructor
  · intro h
    by_contra hc
    exact stripSuffix_snd_ne_nil _ _ (stripPrefixes_snd_ne_nil _ _ hc) h
  · intro h
    rw [h, stripPrefixes_snd_nil, stripSuffix_snd_nil]

/-! Confidence scoring. -/

/-- The confidence formula as the specification words it, written
independently of `calculate_dynamic_confidence` for comparison: the
arithmetic mean, rounded to two decimal places, of a length factor
(1.0 for cleaned length in [2,8], else 0.5), a pattern factor (0.8 when
the verb heuristic or the noun heuristic fires, else 0.4) and a stem
factor (0.7 when the detected stem is non-empty, else 0.3). -/
def confidenceSpec (w : List Char) : ℚ :=
  round2 (((if 2 ≤ w.length ∧ w.length ≤ 8 then (1 : ℚ) else 1/2) +
    (if matches_verb_patterns w = true ∨ matches_noun_patterns w = true
      then (4 : ℚ)/5 else 2/5) +
    (if (detect_morphemes w).stem ≠ [] then (7 : ℚ)/10 else 3/10)) / 3)

/-- The confidence score always evaluates to one of the six rationals
0.4, 0.53, 0.57, 0.67, 0.7, 0.83 (the eight factor combinations produce
six distinct rounded means). -/
theorem confidence_cases (w : List Char) :
    calculate_dynamic_confidence w = 2/5 ∨
    calculate_dynamic_confidence w = 53/100 ∨
    calculate_dynamic_confidence w = 57/100 ∨
    calculate_dynamic_confidence w = 67/100 ∨
    calculate_dynamic_confidence w = 7/10 ∨
    calculate_dynamic_confidence w = 83/100 := by
  unfold calculate_dynamic_confidence
  split_ifs <;> norm_num [round2, round_eq]

/-- C4: the reported confidence equals the spec-side formula (mean of the
three factors on the cleaned token, rounded to two decimals), and in
particular always lies in [0, 1]. -/
theorem C4_confidence_formula (word : List Char) :
    (analyze_word_dynamically word).confidence_score =
      confidenceSpec ((analyze_word_dynamically word).clean_word) ∧
    0 ≤ (analyze_word_dynamically word).confidence_score ∧
    (analyze_word_dynamically word).confidence_score ≤ 1 := by
  refine ⟨?_, ?_, ?_⟩
  · show calculate_dynamic_confidence (clean_hebrew_word word) =
      confidenceSpec (clean_hebrew_word word)
    unfold calculate_dynamic_confidence confidenceSpec
    simp only [Bool.or_eq_true]
  · show 0 ≤ calculate_dynamic_confidence (clean_hebrew_word word)
    rcases confidence_cases (clean_hebrew_word word) with
      h | h | h | h | h | h <;> rw [h] <;> norm_num
  · show calculate_dynamic_confidence (clean_hebrew_word word) ≤ 1
    rcases confidence_cases (clean_hebrew_word word) with
      h | h | h | h | h | h <;> rw [h] <;> norm_num

/-- C10: for every input string the confidence score lies in
[0.4, 0.83] — the minimum factor combination (0.5 + 0.4 + 0.3)/3 rounds
to 0.4 and the maximum (1.0 + 0.8 + 0.7)/3 rounds to 0.83 — so no input
ever produces a score of 0.0 or of 1.0. -/
theorem C10_confidence_window (word : List Char) :
    2/5 ≤ (analyze_word_dynamically word).confidence_score ∧
    (analyze_word_dynamically word).confidence_score ≤ 83/100 ∧
    (analyze_word_dynamically word).confidence_score ≠ 0 ∧
    (analyze_word_dynamically word).confidence_score ≠ 1 := by
  have h : (analyze_word_dynamically word).confidence_score =
      calculate_dynamic_confidence (clean_hebrew_word word) := rfl
  rcases confidence_cases (clean_hebrew_word word) with
    hc | hc | hc | hc | hc | hc <;> rw [h, hc] <;> norm_num

/-- C6: graceful degradation — for every input string (the embedding is a
total function, so termination and absence of exceptions hold by
construction) the analysis record is fully populated with well-formed
fields: the original word is echoed, the primary category is one of the
four designed values, the root confidence is `medium` or `low`, the
syllable estimate is at least one, and the confidence score is in [0, 1]. -/
theorem C6_total_graceful (word : List Char) :
    (analyze_word_dynamically word).original_word = word ∧
    ((analyze_word_dynamically word).grammatical_category.primary_category
        = "verb" ∨
      (analyze_word_dynamically word).grammatical_category.primary_category
        = "noun" ∨
      (analyze_word_dynamically word).grammatical_category.primary_category
        = "particle" ∨
      (analyze_word_dynamically word).grammatical_category.primary_category
        = "unknown") ∧
    ((analyze_word_dynamically word).root_extraction.confidence = "medium" ∨
      (analyze_word_dynamically word).root_extraction.confidence = "low") ∧
    1 ≤ (analyze_word_dynamically word).morphological_features.syllable_count ∧
    0 ≤ (analyze_word_dynamically word).confidence_score ∧
    (analyze_word_dynamically word).confidence_score ≤ 1 := by
  refine ⟨rfl, ?_, ?_, ?_, ?_, ?_⟩
  · show (classify_grammatically (clean_hebrew_word word)).primary_category
        = "verb" ∨
      (classify_grammatically (clean_hebrew_word word)).primary_category
        = "noun" ∨
      (classify_grammatically (clean_hebrew_word word)).primary_category
        = "particle" ∨
      (classify_grammatically (clean_hebrew_word word)).primary_category
        = "unknown"
    unfold classify_grammatically
    split_ifs <;> simp
  · show (extract_root_algorithmically
        (clean_hebrew_word word)).confidence = "medium" ∨
      (extract_root_algorithmically (clean_hebrew_word word)).confidence
        = "low"
    unfold extract_root_algorithmically
    simp only
    split_ifs <;> simp
  · show 1 ≤ estimate_syllables (clean_hebrew_word word)
    exact le_max_left 1 _
  · show 0 ≤ calculate_dynamic_confidence (clean_hebrew_word word)
    rcases confidence_cases (clean_hebrew_word word) with
      h | h | h | h | h | h <;> rw [h] <;> norm_num
  · show calculate_dynamic_confidence (clean_hebrew_word word) ≤ 1
    rcases confidence_cases (clean_hebrew_word word) with
      h | h | h | h | h | h <;> rw [h] <;> norm_num

/-! The verb rule, stated the way the specification words it. -/

/-- The last character of `w` belongs to `cls` (specification reading of
the trailing-character test). -/
def lastCharIn (cls : List Char) (w : List Char) : Bool :=
  match w.getLast? with
  | some c => cls.contains c
  | none => false

/-- The first character of `w` belongs to `cls`. -/
def firstCharIn (cls : List Char) (w : List Char) : Bool :=
  match w.head? with
  | some c => cls.contains c
  | none => false

/-- The number of verb indicators holding on a token, per the
specification: nikkud-stripped length at least three, last character a
verbal ending, first character a verbal prefix. -/
def verbIndicatorCount (w : List Char) : Nat :=
  (decide (3 ≤ (extract_consonants w).length)).toNat +
    (lastCharIn verbalEndings w).toNat +
    (firstCharIn verbalPrefixes w).toNat

/-- The leading-character regex search is the first-character test. -/
theorem searchClassStart_eq (cls w : List Char) :
    searchClassStart cls w = firstCharIn cls w := by
  cases w <;> rfl

/-- On a word that does not end with a newline, the trailing-character
regex search (`$` can also match before a final newline) is exactly the
last-character test. -/
theorem searchClassEnd_eq_of_no_newline (cls w : List Char)
    (h : ∀ c, w.reverse.head? = some c → c ≠ '\n') :
    searchClassEnd cls w = lastCharIn cls w := by
  unfold searchClassEnd lastCharIn
  rw [List.getLast?_eq_head?_reverse]
  cases hrev : w.reverse with
  | nil => rfl
  | cons c rest =>
    have hc : c ≠ '\n' := h c (by rw [hrev]; rfl)
    simp [hc]

/-- The two-of-three verb test, translated to the specification's
indicator count, on words with no trailing newline. -/
theorem matches_verb_iff_count (w : List Char)
    (h : ∀ c, w.reverse.head? = some c → c ≠ '\n') :
    matches_verb_patterns w = true ↔ 2 ≤ verbIndicatorCount w := by
  unfold matches_verb_patterns verbIndicatorCount
  rw [searchClassEnd_eq_of_no_newline verbalEndings w h, searchClassStart_eq]
  simp [decide_eq_true_iff]

/-- The classifier reports `verb` exactly when the verb heuristic fires
(the verb branch is the first branch of the rule chain). -/
theorem classify_verb_iff (w : List Char) :
    (classify_grammatically w).primary_category = "verb" ↔
      matches_verb_patterns w = true := by
  unfold classify_grammatically
  split_ifs with h1 h2 h3
  · exact iff_of_true rfl h1
  · exact iff_of_false (fun hcon => by simp at hcon) h1
  · exact iff_of_false (fun hcon => by simp at hcon) h1
  · exact iff_of_false (fun hcon => by simp at hcon) h1

/-- A cleaned word never ends with a newline. -/
theorem clean_no_trailing_newline (word : List Char) :
    ∀ c, (clean_hebrew_word word).reverse.head? = some c → c ≠ '\n' := by
  intro c hc heq
  have hpunct := clean_last_not_punct word hc
  rw [heq] at hpunct
  exact absurd hpunct (by decide)

/-- C7: the primary category is `verb` exactly when at least two of the
three indicators hold on the cleaned token — nikkud-stripped length at
least three, last character in the verbal-ending set, first character in
the verbal-prefix set — and since the verb branch is evaluated first, any
such token is classified `verb` regardless of the noun and particle
rules. -/
theorem C7_verb_rule (word : List Char) :
    (analyze_word_dynamically word).grammatical_category.primary_category
        = "verb" ↔
      2 ≤ verbIndicatorCount ((analyze_word_dynamically word).clean_word) := by
  show (classify_grammatically (clean_hebrew_word word)).primary_category
      = "verb" ↔ 2 ≤ verbIndicatorCount (clean_hebrew_word word)
  rw [classify_verb_iff]
  exact matches_verb_iff_count (clean_hebrew_word word)
    (clean_no_trailing_newline word)

end DynamicHebrew
